import Mathlib

set_option linter.unusedSectionVars false
set_option maxRecDepth 100000
set_option linter.unusedVariables false

/-
  A verification development for the Skymap concurrent hashtable
  (src/server/src/coredb/skymap.rs).

  The embedding is sequential: every operation is modelled as a pure
  function on an explicit map state.  The per-bucket and table-wide
  locks only serialise accesses; a single operation running alone sees
  exactly the sequential semantics embedded here.  The randomly seeded
  hasher (RandomState) of a table is modelled as an arbitrary function
  K -> Nat stored in the table; operations of the source that allocate a
  fresh table with a fresh RandomState take the hash function of the new
  table as an explicit argument.  A probe walk of the source panics when
  no bucket matches the predicate; a panic is modelled as the value
  none, so every fallible operation returns an Option.
-/

namespace Skytable

/-- Length-to-capacity factor used when reallocating. -/
def MULTIPLICATION_FACTOR : Nat := 4

/-- Denominator of the maximum load factor. -/
def MAX_LOAD_FACTOR_DENOM : Nat := 100

/-- Numerator of the maximum load factor (100 - 15 = 85). -/
def MAX_LOAD_FACTOR_TOP : Nat := MAX_LOAD_FACTOR_DENOM - 15

/-- The initial capacity of a Skymap (number of keys, not buckets). -/
def DEF_INIT_CAPACITY : Nat := 128

/-- The smallest hashtable that we can have. -/
def DEF_MIN_CAPACITY : Nat := 16

/-- A single entry of the hashtable: the three bucket states of the source
(Contains a key/value pair, never-used Empty, or Removed tombstone). -/
inductive HashBucket (K V : Type) where
  | Contains : K → V → HashBucket K V
  | Empty : HashBucket K V
  | Removed : HashBucket K V
deriving DecidableEq

variable {K V : Type} [DecidableEq K]

/-- Check if this bucket has an Empty state. -/
def HashBucket.is_empty : HashBucket K V → Bool
  | .Empty => true
  | _ => false

/-- Check if this bucket has a Removed state. -/
def HashBucket.is_removed : HashBucket K V → Bool
  | .Removed => true
  | _ => false

/-- Check if the bucket is available (or free) for insertions. -/
def HashBucket.is_available : HashBucket K V → Bool
  | .Removed => true
  | .Empty => true
  | _ => false

/-- Reference to the value of a Contains bucket (the Result of the source
becomes an Option). -/
def HashBucket.get_value_ref : HashBucket K V → Option V
  | .Contains _ v => some v
  | _ => none

/-- Same as get_value_ref, for the consuming accessor of the source. -/
def HashBucket.get_value : HashBucket K V → Option V
  | .Contains _ v => some v
  | _ => none

/-- The low-level inner hashtable: the buckets plus the seeded hasher,
the latter modelled as a function from keys to hash values. -/
structure Table (K V : Type) where
  buckets : List (HashBucket K V)
  hash : K → Nat

/-- Initialize a new low-level table with a number of given buckets, all
Empty, and the given (fresh) hasher. -/
def Table.new (count : Nat) (f : K → Nat) : Table K V :=
  ⟨List.replicate count HashBucket.Empty, f⟩

/-- Initialize a new low-level table with space for at least cap keys. -/
def Table.with_capacity (cap : Nat) (f : K → Nat) : Table K V :=
  Table.new (max DEF_MIN_CAPACITY
    (cap * MAX_LOAD_FACTOR_DENOM / MAX_LOAD_FACTOR_TOP + 1)) f

/-- The bucket stored at index j (Empty out of range; all uses are in
range). -/
def Table.bucketAt (t : Table K V) (j : Nat) : HashBucket K V :=
  t.buckets.getD j HashBucket.Empty

/-- Replace the bucket at index j. -/
def Table.setBucket (t : Table K V) (j : Nat) (b : HashBucket K V) : Table K V :=
  ⟨t.buckets.set j b, t.hash⟩

/-- First index m with start <= m < start + fuel such that p m = true. -/
def firstSat (p : Nat → Bool) : Nat → Nat → Option Nat
  | _, 0 => none
  | i, r + 1 => if p i then some i else firstSat p (i + 1) r

/-- The probe walk shared by all scans of the source: starting from hash
h, visit bucket indices (h + i) % n for i = 0 .. n - 1 and return the
index of the first bucket satisfying the predicate.  The source panics
when no bucket matches; this is the value none. -/
def Table.scan (t : Table K V) (h : Nat) (pred : HashBucket K V → Bool) : Option Nat :=
  (firstSat (fun i => pred (t.bucketAt ((h + i) % t.buckets.length))) 0
      t.buckets.length).map
    (fun i => (h + i) % t.buckets.length)

/-- The lookup predicate of the source: a bucket matches if it holds the
target key, or if it is Empty (end of the probe chain); tombstones are
skipped. -/
def lookupMatch (k : K) : HashBucket K V → Bool
  | .Contains k2 _ => decide (k2 = k)
  | .Empty => true
  | .Removed => false

/-- Look up a key: scan with the lookup predicate.  The source has lookup
(read lock) and lookup_mut (write lock) with the identical predicate;
the sequential model needs only one function. -/
def Table.lookup (t : Table K V) (k : K) : Option Nat :=
  t.scan (t.hash k) (lookupMatch k)

/-- Returns a free bucket available to store a key (find_free_mut of the
source): scan with the availability predicate. -/
def Table.find_free_mut (t : Table K V) (k : K) : Option Nat :=
  t.scan (t.hash k) (fun b => b.is_available)

/-- Rehash-fill of the source: for every Contains bucket of the source
list, probe this (freshly allocated) table for the first Empty bucket
and store the pair there.  none models the panic of an exhausted probe. -/
def Table.fill_from : Table K V → List (HashBucket K V) → Option (Table K V)
  | t, [] => some t
  | t, b :: rest =>
    match b with
    | .Contains k v =>
      match t.scan (t.hash k) (fun hb => hb.is_empty) with
      | some j => (t.setBucket j (.Contains k v)).fill_from rest
      | none => none
    | _ => t.fill_from rest

/-- The Skymap: one table (behind the table-wide lock of the source) plus
the atomic length counter. -/
structure Skymap (K V : Type) where
  table : Table K V
  len : Nat

/-- with_capacity constructor of the source. -/
def Skymap.with_capacity (cap : Nat) (f : K → Nat) : Skymap K V :=
  ⟨Table.with_capacity cap f, 0⟩

/-- new() constructs a Skymap with capacity DEF_INIT_CAPACITY = 128. -/
def Skymap.new (f : K → Nat) : Skymap K V :=
  Skymap.with_capacity DEF_INIT_CAPACITY f

/-- buckets_count of the source. -/
def Skymap.buckets_count (s : Skymap K V) : Nat :=
  s.table.buckets.length

/-- capacity of the source. -/
def Skymap.capacity (s : Skymap K V) : Nat :=
  max DEF_MIN_CAPACITY s.buckets_count * MAX_LOAD_FACTOR_TOP / MAX_LOAD_FACTOR_DENOM

/-- is_empty of the source. -/
def Skymap.is_empty (s : Skymap K V) : Bool :=
  s.len == 0

/-- clear() of the source: the original map gets a fresh
Table::new(DEF_INIT_CAPACITY) (with a fresh hasher f) and length 0, and
the call returns a new Skymap owning the previous table and previous
length.  The first component is the returned map, the second the state
of the original map after the call. -/
def Skymap.clear (s : Skymap K V) (f : K → Nat) : Skymap K V × Skymap K V :=
  (⟨s.table, s.len⟩, ⟨Table.new DEF_INIT_CAPACITY f, 0⟩)

/-- contains_key: probe with the lookup predicate and return the negation
of is_available on the bucket found.  none models the probe panic. -/
def Skymap.contains_key (s : Skymap K V) (k : K) : Option Bool :=
  (s.table.lookup k).map (fun j => !(s.table.bucketAt j).is_available)

/-- get: probe with the lookup predicate; a Contains bucket yields a guard
dereferencing to the value.  The outer none models the probe panic; the
inner Option is the return value of the source (None for absent keys). -/
def Skymap.get (s : Skymap K V) (k : K) : Option (Option V) :=
  (s.table.lookup k).map (fun j => (s.table.bucketAt j).get_value_ref)

/-- reserve_space of the source, called with the already-incremented
length: target bucket count is (len + for_how_many) * 4; if the current
table is smaller, replace it by a fresh table of that capacity (fresh
hasher f) filled from the old buckets. -/
def Skymap.reserve_space (s : Skymap K V) (for_how_many : Nat) (f : K → Nat) :
    Option (Skymap K V) :=
  let target := (s.len + for_how_many) * MULTIPLICATION_FACTOR
  if s.table.buckets.length < target then
    ((Table.with_capacity target f).fill_from s.table.buckets).map
      (fun t2 => ⟨t2, s.len⟩)
  else some s

/-- reshard_table of the source: increment the length (fetch_add), then
if len * 100 > bucket_count * 85, reserve space for one more entry. -/
def Skymap.reshard_table (s : Skymap K V) (f : K → Nat) : Option (Skymap K V) :=
  let s1 : Skymap K V := ⟨s.table, s.len + 1⟩
  if s1.len * MAX_LOAD_FACTOR_DENOM > s1.table.buckets.length * MAX_LOAD_FACTOR_TOP then
    s1.reserve_space 1 f
  else some s1

/-- insert of the source: false if the key is already present (value not
overwritten); otherwise store Contains(key, value) in the first free
bucket and run the rehash check (which increments len). -/
def Skymap.insert (s : Skymap K V) (k : K) (v : V) (f : K → Nat) :
    Option (Bool × Skymap K V) :=
  match s.contains_key k with
  | none => none
  | some true => some (false, s)
  | some false =>
    match s.table.find_free_mut k with
    | none => none
    | some j =>
      (Skymap.reshard_table ⟨s.table.setBucket j (.Contains k v), s.len⟩ f).map
        (fun s2 => (true, s2))

/-- update of the source: true if the key was present and the value was
replaced in place (the stored key is kept); false otherwise. -/
def Skymap.update (s : Skymap K V) (k : K) (v : V) :
    Option (Bool × Skymap K V) :=
  match s.table.lookup k with
  | none => none
  | some j =>
    match s.table.bucketAt j with
    | .Contains k0 _ => some (true, ⟨s.table.setBucket j (.Contains k0 v), s.len⟩)
    | _ => some (false, s)

/-- remove of the source: Some(previous value), replacing the bucket by
the Removed tombstone and decrementing len, if the key is present; None
if absent.  The fetch_sub of the source is modelled by Nat subtraction:
the two differ only at len = 0, and the invariant len = occupiedCount
(proved below) shows len is at least 1 whenever the decrement runs. -/
def Skymap.remove (s : Skymap K V) (k : K) :
    Option (Option V × Skymap K V) :=
  match s.table.lookup k with
  | none => none
  | some j =>
    match s.table.bucketAt j with
    | .Contains _ v => some (some v, ⟨s.table.setBucket j .Removed, s.len - 1⟩)
    | _ => some (none, s)

/-- true_if_removed of the source: the boolean analogue of remove. -/
def Skymap.true_if_removed (s : Skymap K V) (k : K) :
    Option (Bool × Skymap K V) :=
  match s.table.lookup k with
  | none => none
  | some j =>
    match s.table.bucketAt j with
    | .Contains _ _ => some (true, ⟨s.table.setBucket j .Removed, s.len - 1⟩)
    | _ => some (false, s)

/-- The mutating operations of the Skymap interface, for building
operation sequences.  Operations that allocate a fresh table carry the
hasher of that table. -/
inductive MapOp (K V : Type) where
  | insert (k : K) (v : V) (f : K → Nat)
  | update (k : K) (v : V)
  | remove (k : K)
  | removeIfPresent (k : K)
  | clear (f : K → Nat)

/-- Run one operation, keeping only the resulting state of the map. -/
def Skymap.step (s : Skymap K V) : MapOp K V → Option (Skymap K V)
  | .insert k v f => (s.insert k v f).map Prod.snd
  | .update k v => (s.update k v).map Prod.snd
  | .remove k => (s.remove k).map Prod.snd
  | .removeIfPresent k => (s.true_if_removed k).map Prod.snd
  | .clear f => some (s.clear f).2

/-- Run a sequence of operations; none as soon as one of them panics. -/
def Skymap.run : List (MapOp K V) → Skymap K V → Option (Skymap K V)
  | [], s => some s
  | op :: rest, s =>
    match s.step op with
    | none => none
    | some s2 => Skymap.run rest s2

/-- A state reachable from a freshly constructed Skymap by a sequence of
completed operations. -/
def Skymap.Reachable (s : Skymap K V) : Prop :=
  ∃ (c : Nat) (f : K → Nat) (ops : List (MapOp K V)),
    Skymap.run ops (Skymap.with_capacity c f) = some s

/-- Does the operation possibly modify the binding of key k?  insert
never overwrites an existing binding; update/remove/removeIfPresent only
touch their own key; clear resets the whole map. -/
def MapOp.mayModify (k : K) : MapOp K V → Bool
  | .insert _ _ _ => false
  | .update q _ => decide (q = k)
  | .remove q => decide (q = k)
  | .removeIfPresent q => decide (q = k)
  | .clear _ => true

/-- Number of probe steps from the home index of hash h to bucket index
j (the length of the half-open probe range from the home index to j). -/
def probeLen (h j n : Nat) : Nat :=
  (j + n - h % n) % n

/-- The key k is stored with value v in some bucket of the table. -/
def tableHas (t : Table K V) (k : K) (v : V) : Prop :=
  ∃ j, j < t.buckets.length ∧ t.bucketAt j = HashBucket.Contains k v

/-- Number of Contains buckets of a table. -/
def occupiedCount (t : Table K V) : Nat :=
  t.buckets.countP (fun b => !b.is_available)

/-- Probe-chain integrity: for every Contains bucket at index j, no
bucket in the probe range from the home index of its key to j matches
the lookup predicate for that key (so the range holds no Empty bucket
and no second copy of the key). -/
def TableWF (t : Table K V) : Prop :=
  ∀ j k v, j < t.buckets.length → t.bucketAt j = HashBucket.Contains k v →
    ∀ i, i < probeLen (t.hash k) j t.buckets.length →
      lookupMatch k (t.bucketAt ((t.hash k + i) % t.buckets.length)) = false

/-- The invariants of a well-formed Skymap state: probe-chain integrity,
the length counter counts the Contains buckets, the load factor bound,
and the minimum bucket count. -/
structure SkymapWF (s : Skymap K V) : Prop where
  wf : TableWF s.table
  lenEq : s.len = occupiedCount s.table
  load : s.len * MAX_LOAD_FACTOR_DENOM ≤ s.table.buckets.length * MAX_LOAD_FACTOR_TOP
  minCap : DEF_MIN_CAPACITY ≤ s.table.buckets.length

/-- No two Contains buckets of the list share a key. -/
def NoDupKeys (l : List (HashBucket K V)) : Prop :=
  l.Pairwise (fun b1 b2 => ∀ k v1 v2,
    b1 = HashBucket.Contains k v1 → b2 = HashBucket.Contains k v2 → False)

/-- The identity hash function on Nat, used for the concrete scenarios:
it realises home indices that any 64-bit hasher also realises (every
residue modulo the bucket count occurs as a home index). -/
def natHash : Nat → Nat := fun k => k

/-- A concrete 16-bucket map (with_capacity 0 allocates max(16, 1) = 16
buckets). -/
def w0 : Skymap Nat Nat := Skymap.with_capacity 0 natHash

/-- Sixteen insert/remove pairs with home indices 0..15: each pair turns
one Empty bucket into a Removed tombstone while len returns to 0.  After
this sequence every bucket of the 16-bucket table is a tombstone. -/
def satOps : List (MapOp Nat Nat) :=
  (List.range 16).flatMap (fun i => [MapOp.insert i 99 natHash, MapOp.remove i])

/-- The state after inserting the pair (1, 10) into the empty 16-bucket
map. -/
def c1xS1 : Skymap Nat Nat :=
  match w0.insert 1 10 natHash with
  | some (_, s) => s
  | none => w0

/-- Two inserts whose keys 0 and 16 share the home index 0 (a hash
collision), so the second key probes past the first. -/
def c5Ops : List (MapOp Nat Nat) :=
  [MapOp.insert 0 7 natHash, MapOp.insert 16 8 natHash]

/-- The state after running c5Ops on the empty 16-bucket map. -/
def c5S : Skymap Nat Nat :=
  match Skymap.run c5Ops w0 with
  | some s => s
  | none => w0

/-- The state after inserting the pair (1, 2) into the empty 16-bucket
map. -/
def c6S : Skymap Nat Nat :=
  match w0.insert 1 2 natHash with
  | some (_, s) => s
  | none => w0

/-- A one-bucket table holding a single Empty bucket. -/
def c7T : Table Nat Nat := ⟨[HashBucket.Empty], natHash⟩

/-! ## Properties of the probe walk -/

theorem firstSat_none_iff (p : Nat → Bool) :
    ∀ r s, firstSat p s r = none ↔ ∀ m, s ≤ m → m < s + r → p m = false := by
  intro r
  induction r with
  | zero =>
    intro s
    constructor
    · intro _ m h1 h2
      exact absurd h2 (by omega)
    · intro _
      rfl
  | succ r ih =>
    intro s
    unfold firstSat
    by_cases hp : p s = true
    · rw [if_pos hp]
      constructor
      · intro h
        exact nomatch h
      · intro h
        exact absurd (h s (Nat.le_refl s) (by omega)) (by simp [hp])
    · have hp2 : p s = false := by simpa using hp
      rw [if_neg hp, ih (s + 1)]
      constructor
      · intro h m h1 h2
        rcases Nat.eq_or_lt_of_le h1 with he | hl
        · exact he ▸ hp2
        · exact h m hl (by omega)
      · intro h m h1 h2
        exact h m (by omega) (by omega)

theorem firstSat_some_spec (p : Nat → Bool) :
    ∀ r s j, firstSat p s r = some j →
      s ≤ j ∧ j < s + r ∧ p j = true ∧ ∀ m, s ≤ m → m < j → p m = false := by
  intro r
  induction r with
  | zero => intro s j h; exact absurd h (by simp [firstSat])
  | succ r ih =>
    intro s j h
    unfold firstSat at h
    by_cases hp : p s = true
    · rw [if_pos hp] at h
      obtain rfl : s = j := by injection h
      exact ⟨Nat.le_refl _, by omega, hp, fun m h1 h2 => absurd h2 (by omega)⟩
    · have hp2 : p s = false := by simpa using hp
      rw [if_neg hp] at h
      obtain ⟨h1, h2, h3, h4⟩ := ih (s + 1) j h
      refine ⟨by omega, by omega, h3, fun m hm1 hm2 => ?_⟩
      rcases Nat.eq_or_lt_of_le hm1 with he | hl
      · exact he ▸ hp2
      · exact h4 m hl hm2

theorem firstSat_eq_some_of (p : Nat → Bool) :
    ∀ r s j, s ≤ j → j < s + r → p j = true →
      (∀ m, s ≤ m → m < j → p m = false) → firstSat p s r = some j := by
  intro r
  induction r with
  | zero => intro s j h1 h2; omega
  | succ r ih =>
    intro s j h1 h2 h3 h4
    unfold firstSat
    rcases Nat.eq_or_lt_of_le h1 with he | hl
    · rw [← he] at h3
      rw [if_pos h3, he]
    · rw [if_neg (by simp [h4 s (Nat.le_refl s) hl])]
      exact ih (s + 1) j hl (by omega) h3 (fun m hm1 hm2 => h4 m (by omega) hm2)

theorem scan_eq_none_iff (t : Table K V) (h : Nat) (pred : HashBucket K V → Bool) :
    t.scan h pred = none ↔
      ∀ i, i < t.buckets.length →
        pred (t.bucketAt ((h + i) % t.buckets.length)) = false := by
  unfold Table.scan
  rw [Option.map_eq_none', firstSat_none_iff]
  exact ⟨fun H i hi => H i (Nat.zero_le _) (by omega),
    fun H m _ hm => H m (by omega)⟩

theorem scan_eq_some (t : Table K V) (h : Nat) (pred : HashBucket K V → Bool) (j : Nat)
    (hs : t.scan h pred = some j) :
    ∃ d, d < t.buckets.length ∧ j = (h + d) % t.buckets.length ∧
      pred (t.bucketAt j) = true ∧
      ∀ i, i < d → pred (t.bucketAt ((h + i) % t.buckets.length)) = false := by
  unfold Table.scan at hs
  obtain ⟨d, hd, rfl⟩ := Option.map_eq_some'.mp hs
  obtain ⟨_, h2, h3, h4⟩ := firstSat_some_spec _ _ _ _ hd
  exact ⟨d, by omega, rfl, h3, fun i hi => h4 i (Nat.zero_le _) hi⟩

theorem scan_eq_some_of (t : Table K V) (h : Nat) (pred : HashBucket K V → Bool) (d : Nat)
    (hd : d < t.buckets.length)
    (hp : pred (t.bucketAt ((h + d) % t.buckets.length)) = true)
    (hbefore : ∀ i, i < d → pred (t.bucketAt ((h + i) % t.buckets.length)) = false) :
    t.scan h pred = some ((h + d) % t.buckets.length) := by
  unfold Table.scan
  rw [firstSat_eq_some_of _ _ 0 d (Nat.zero_le _) (by omega) hp
    (fun m _ hm => hbefore m hm)]
  rfl

/-! ## Arithmetic of the probe range -/

theorem probeLen_lt (h : Nat) {j n : Nat} (hn : 0 < n) : probeLen h j n < n :=
  Nat.mod_lt _ hn

theorem add_probeLen_mod {j n : Nat} (hsh : Nat) (hj : j < n) :
    (hsh + probeLen hsh j n) % n = j := by
  have hn : 0 < n := Nat.lt_of_le_of_lt (Nat.zero_le _) hj
  have hh : hsh % n < n := Nat.mod_lt _ hn
  rcases le_or_lt (hsh % n) j with hle | hlt
  · have ep : probeLen hsh j n = j - hsh % n := by
      unfold probeLen
      have e1 : j + n - hsh % n = (j - hsh % n) + n := by omega
      rw [e1, Nat.add_mod_right]
      exact Nat.mod_eq_of_lt (by omega)
    rw [ep, ← Nat.mod_add_mod]
    have e2 : hsh % n + (j - hsh % n) = j := by omega
    rw [e2]
    exact Nat.mod_eq_of_lt hj
  · have ep : probeLen hsh j n = j + n - hsh % n := by
      unfold probeLen
      exact Nat.mod_eq_of_lt (by omega)
    rw [ep, ← Nat.mod_add_mod]
    have e2 : hsh % n + (j + n - hsh % n) = j + n := by omega
    rw [e2, Nat.add_mod_right]
    exact Nat.mod_eq_of_lt hj

theorem probeLen_of_step {i n : Nat} (hsh : Nat) (hi : i < n) :
    probeLen hsh ((hsh + i) % n) n = i := by
  have hn : 0 < n := Nat.lt_of_le_of_lt (Nat.zero_le _) hi
  have hh : hsh % n < n := Nat.mod_lt _ hn
  unfold probeLen
  have e0 : (hsh + i) % n = (hsh % n + i) % n := (Nat.mod_add_mod hsh n i).symm
  rw [e0]
  rcases Nat.lt_or_ge (hsh % n + i) n with hlt | hge
  · rw [Nat.mod_eq_of_lt hlt]
    have e1 : hsh % n + i + n - hsh % n = i + n := by omega
    rw [e1, Nat.add_mod_right]
    exact Nat.mod_eq_of_lt hi
  · have e2 : (hsh % n + i) % n = hsh % n + i - n := by
      rw [Nat.mod_eq_sub_mod hge]
      exact Nat.mod_eq_of_lt (by omega)
    rw [e2]
    have e1 : hsh % n + i - n + n - hsh % n = i := by omega
    rw [e1]
    exact Nat.mod_eq_of_lt hi

theorem step_ne_of_lt_probeLen {i j n : Nat} (hsh : Nat) (hj : j < n)
    (hi : i < probeLen hsh j n) : (hsh + i) % n ≠ j := by
  intro he
  have hn : 0 < n := Nat.lt_of_le_of_lt (Nat.zero_le _) hj
  have h1 : probeLen hsh j n < n := probeLen_lt _ hn
  have hi2 : i < n := by omega
  have h2 := probeLen_of_step hsh hi2
  rw [he] at h2
  omega

/-! ## Bucket access and update -/

theorem setBucket_length (t : Table K V) (j : Nat) (b : HashBucket K V) :
    (t.setBucket j b).buckets.length = t.buckets.length :=
  List.length_set t.buckets j b

theorem setBucket_hash (t : Table K V) (j : Nat) (b : HashBucket K V) :
    (t.setBucket j b).hash = t.hash := rfl

theorem bucketAt_set_self (t : Table K V) {j : Nat} (hj : j < t.buckets.length)
    (b : HashBucket K V) : (t.setBucket j b).bucketAt j = b := by
  unfold Table.bucketAt Table.setBucket
  rw [List.getD_eq_getElem _ _ (by simpa using hj)]
  simp [List.getElem_set]

theorem bucketAt_set_other (t : Table K V) {i j : Nat} (hne : i ≠ j)
    (b : HashBucket K V) : (t.setBucket j b).bucketAt i = t.bucketAt i := by
  unfold Table.bucketAt Table.setBucket
  rcases Nat.lt_or_ge i t.buckets.length with hi | hi
  · rw [List.getD_eq_getElem _ _ (by simpa using hi), List.getD_eq_getElem _ _ hi]
    rw [List.getElem_set, if_neg (fun h => hne h.symm)]
  · rw [List.getD_eq_default _ _ (by simpa using hi), List.getD_eq_default _ _ hi]

theorem bucketAt_lt_mem {t : Table K V} {j : Nat} (hj : j < t.buckets.length) :
    t.bucketAt j ∈ t.buckets := by
  unfold Table.bucketAt
  rw [List.getD_eq_getElem _ _ hj]
  exact List.getElem_mem hj

theorem bucketAt_replicate (count : Nat) (f : K → Nat) (j : Nat) :
    (Table.new (K := K) (V := V) count f).bucketAt j = HashBucket.Empty := by
  unfold Table.new Table.bucketAt
  rcases Nat.lt_or_ge j count with hj | hj
  · rw [List.getD_eq_getElem _ _ (by simpa using hj)]
    simp
  · rw [List.getD_eq_default _ _ (by simpa using hj)]

theorem table_new_length (count : Nat) (f : K → Nat) :
    (Table.new (K := K) (V := V) count f).buckets.length = count := by
  simp [Table.new]

theorem with_capacity_length (cap : Nat) (f : K → Nat) :
    (Table.with_capacity (K := K) (V := V) cap f).buckets.length =
      max DEF_MIN_CAPACITY (cap * MAX_LOAD_FACTOR_DENOM / MAX_LOAD_FACTOR_TOP + 1) :=
  table_new_length _ _

theorem countP_set_add {α : Type} (p : α → Bool) (b : α) :
    ∀ (l : List α) (j : Nat), j < l.length →
      (l.set j b).countP p + (if p (l.getD j b) then 1 else 0) =
        l.countP p + (if p b then 1 else 0) := by
  intro l
  induction l with
  | nil => intro j hj; simp at hj
  | cons a t ih =>
    intro j hj
    cases j with
    | zero =>
      simp only [List.set, List.getD_cons_zero, List.countP_cons]
      omega
    | succ j =>
      simp only [List.set, List.getD_cons_succ, List.countP_cons]
      have := ih j (by simpa using hj)
      omega

/-! ## The lookup predicate and the table invariant -/

theorem lookupMatch_contains (k k2 : K) (v : V) :
    lookupMatch k (HashBucket.Contains k2 v) = decide (k2 = k) := rfl

theorem lookupMatch_self (k : K) (v : V) :
    lookupMatch k (HashBucket.Contains k v) = true := by
  simp [lookupMatch]

theorem is_available_contains (k : K) (v : V) :
    (HashBucket.Contains k v : HashBucket K V).is_available = false := rfl

/-- Under probe-chain integrity, looking up an occupied key finds exactly
its bucket. -/
theorem lookup_finds {t : Table K V} (hWF : TableWF t) {j : Nat} {k : K} {v : V}
    (hj : j < t.buckets.length) (hb : t.bucketAt j = HashBucket.Contains k v) :
    t.lookup k = some j := by
  have hn : 0 < t.buckets.length := Nat.lt_of_le_of_lt (Nat.zero_le _) hj
  have hd : probeLen (t.hash k) j t.buckets.length < t.buckets.length :=
    probeLen_lt _ hn
  have hjd : (t.hash k + probeLen (t.hash k) j t.buckets.length) % t.buckets.length = j :=
    add_probeLen_mod _ hj
  have hs := scan_eq_some_of t (t.hash k) (lookupMatch k) _ hd
    (by rw [hjd, hb]; exact lookupMatch_self k v)
    (fun i hi => hWF j k v hj hb i hi)
  rw [hjd] at hs
  exact hs

/-- Under probe-chain integrity keys are stored at most once. -/
theorem occupied_index_unique {t : Table K V} (hWF : TableWF t) {j1 j2 : Nat}
    {k : K} {v1 v2 : V} (hj1 : j1 < t.buckets.length) (hj2 : j2 < t.buckets.length)
    (hb1 : t.bucketAt j1 = HashBucket.Contains k v1)
    (hb2 : t.bucketAt j2 = HashBucket.Contains k v2) : j1 = j2 := by
  have h1 := lookup_finds hWF hj1 hb1
  have h2 := lookup_finds hWF hj2 hb2
  rw [h1] at h2
  injection h2

theorem tableHas_value_unique {t : Table K V} (hWF : TableWF t) {k : K} {v1 v2 : V}
    (h1 : tableHas t k v1) (h2 : tableHas t k v2) : v1 = v2 := by
  obtain ⟨j1, hj1, hb1⟩ := h1
  obtain ⟨j2, hj2, hb2⟩ := h2
  obtain rfl := occupied_index_unique hWF hj1 hj2 hb1 hb2
  rw [hb1] at hb2
  simpa using hb2

theorem tableHas_iff_mem {t : Table K V} {k : K} {v : V} :
    tableHas t k v ↔ HashBucket.Contains k v ∈ t.buckets := by
  constructor
  · rintro ⟨j, hj, hb⟩
    rw [← hb]
    exact bucketAt_lt_mem hj
  · intro hm
    obtain ⟨⟨j, hj⟩, he⟩ := List.mem_iff_get.mp hm
    refine ⟨j, hj, ?_⟩
    unfold Table.bucketAt
    rw [List.getD_eq_getElem _ _ hj]
    simpa using he

theorem noDupKeys_of_WF {t : Table K V} (hWF : TableWF t) : NoDupKeys t.buckets := by
  rw [NoDupKeys, List.pairwise_iff_getElem]
  intro i j hi hj hij k v1 v2 hb1 hb2
  have e1 : t.bucketAt i = HashBucket.Contains k v1 := by
    unfold Table.bucketAt
    rw [List.getD_eq_getElem _ _ hi]
    exact hb1
  have e2 : t.bucketAt j = HashBucket.Contains k v2 := by
    unfold Table.bucketAt
    rw [List.getD_eq_getElem _ _ hj]
    exact hb2
  have := occupied_index_unique hWF hi hj e1 e2
  omega

/-- A freshly allocated table satisfies probe-chain integrity. -/
theorem tableWF_new (count : Nat) (f : K → Nat) :
    TableWF (Table.new (K := K) (V := V) count f) := by
  intro j k v hj hb
  rw [bucketAt_replicate] at hb
  exact nomatch hb

theorem tableHas_new (count : Nat) (f : K → Nat) (k : K) (v : V) :
    ¬ tableHas (Table.new (K := K) (V := V) count f) k v := by
  rintro ⟨j, hj, hb⟩
  rw [bucketAt_replicate] at hb
  exact nomatch hb

theorem occupiedCount_new (count : Nat) (f : K → Nat) :
    occupiedCount (Table.new (K := K) (V := V) count f) = 0 := by
  unfold occupiedCount Table.new
  rw [List.countP_eq_zero]
  intro a ha
  rw [List.eq_of_mem_replicate ha]
  simp [HashBucket.is_available]

/-! ## Effect of a single bucket write on the invariant -/

/-- Writing a pair into the bucket found by a scan whose predicate only
accepts available buckets (and accepts every Empty bucket) preserves
probe-chain integrity, provided the key is absent. -/
theorem set_occupied_WF {t : Table K V} {P : HashBucket K V → Bool} {k : K} {v : V}
    {j : Nat} (hWF : TableWF t) (habs : ∀ w, ¬ tableHas t k w)
    (hscan : t.scan (t.hash k) P = some j)
    (hPe : ∀ b : HashBucket K V, b.is_empty = true → P b = true)
    (hPa : ∀ b : HashBucket K V, P b = true → b.is_available = true) :
    TableWF (t.setBucket j (.Contains k v)) ∧ j < t.buckets.length ∧
      (t.bucketAt j).is_available = true := by
  obtain ⟨d, hd, hje, hpj, hbefore⟩ := scan_eq_some t (t.hash k) P j hscan
  have hn : 0 < t.buckets.length := Nat.lt_of_le_of_lt (Nat.zero_le _) hd
  have hjlt : j < t.buckets.length := by rw [hje]; exact Nat.mod_lt _ hn
  have hdprobe : probeLen (t.hash k) j t.buckets.length = d := by
    rw [hje]; exact probeLen_of_step _ hd
  refine ⟨?_, hjlt, hPa _ hpj⟩
  intro j2 k2 v2 hj2 hb2 i hi
  rw [setBucket_length] at hj2
  rw [setBucket_hash] at hi ⊢
  rw [setBucket_length] at hi ⊢
  by_cases hjj : j2 = j
  · -- the freshly written entry
    subst hjj
    rw [bucketAt_set_self t hjlt] at hb2
    injection hb2 with hk2 hv2
    subst hk2
    have hne := step_ne_of_lt_probeLen (t.hash k) hjlt hi
    have hid : i < d := hdprobe ▸ hi
    rw [bucketAt_set_other t hne]
    have hnp := hbefore i hid
    cases hb : t.bucketAt ((t.hash k + i) % t.buckets.length) with
    | Empty => rw [hb] at hnp; rw [hPe HashBucket.Empty rfl] at hnp; exact nomatch hnp
    | Removed => rfl
    | Contains k3 v3 =>
      rw [lookupMatch_contains]
      have : k3 ≠ k := by
        intro he
        subst he
        exact habs v3 ⟨_, Nat.mod_lt _ hn, hb⟩
      simpa using this
  · -- a previously present entry
    rw [bucketAt_set_other t hjj] at hb2
    have hk2 : k2 ≠ k := by
      intro he
      subst he
      exact habs v2 ⟨j2, hj2, hb2⟩
    have hold := hWF j2 k2 v2 hj2 hb2 i hi
    by_cases hmj : (t.hash k2 + i) % t.buckets.length = j
    · rw [hmj, bucketAt_set_self t hjlt]
      rw [lookupMatch_contains]
      simpa using fun he => hk2 he.symm
    · rw [bucketAt_set_other t hmj]
      exact hold

/-- Replacing an occupied bucket by a tombstone preserves probe-chain
integrity. -/
theorem set_removed_WF {t : Table K V} {j : Nat} {k : K} {v : V} (hWF : TableWF t)
    (hj : j < t.buckets.length) (hb : t.bucketAt j = HashBucket.Contains k v) :
    TableWF (t.setBucket j .Removed) := by
  intro j2 k2 v2 hj2 hb2 i hi
  rw [setBucket_length] at hj2
  rw [setBucket_hash] at hi ⊢
  rw [setBucket_length] at hi ⊢
  by_cases hjj : j2 = j
  · subst hjj
    rw [bucketAt_set_self t hj] at hb2
    exact nomatch hb2
  · rw [bucketAt_set_other t hjj] at hb2
    have hold := hWF j2 k2 v2 hj2 hb2 i hi
    by_cases hmj : (t.hash k2 + i) % t.buckets.length = j
    · rw [hmj, bucketAt_set_self t hj]
      rfl
    · rw [bucketAt_set_other t hmj]
      exact hold

/-- Replacing the value of an occupied bucket in place preserves
probe-chain integrity. -/
theorem set_value_WF {t : Table K V} {j : Nat} {k : K} {v v2 : V} (hWF : TableWF t)
    (hj : j < t.buckets.length) (hb : t.bucketAt j = HashBucket.Contains k v) :
    TableWF (t.setBucket j (.Contains k v2)) := by
  intro j2 k2 v3 hj2 hb2 i hi
  rw [setBucket_length] at hj2
  rw [setBucket_hash] at hi ⊢
  rw [setBucket_length] at hi ⊢
  by_cases hjj : j2 = j
  · subst hjj
    rw [bucketAt_set_self t hj] at hb2
    injection hb2 with hk2 hv2
    subst hk2
    have hold := hWF j2 k v hj hb i hi
    have hmj := step_ne_of_lt_probeLen (t.hash k) hj hi
    rw [bucketAt_set_other t hmj]
    exact hold
  · rw [bucketAt_set_other t hjj] at hb2
    have hold := hWF j2 k2 v3 hj2 hb2 i hi
    by_cases hmj : (t.hash k2 + i) % t.buckets.length = j
    · rw [hmj, bucketAt_set_self t hj]
      rw [hmj, hb] at hold
      rw [lookupMatch_contains] at hold ⊢
      exact hold
    · rw [bucketAt_set_other t hmj]
      exact hold

/-! ## Effect of a single bucket write on the stored bindings -/

theorem tableHas_set_over_available {t : Table K V} {j : Nat}
    (hj : j < t.buckets.length) (hav : (t.bucketAt j).is_available = true)
    (b : HashBucket K V) (q : K) (w : V) :
    tableHas (t.setBucket j b) q w ↔ (b = HashBucket.Contains q w ∨ tableHas t q w) := by
  constructor
  · rintro ⟨j2, hj2, hb2⟩
    rw [setBucket_length] at hj2
    by_cases hjj : j2 = j
    · subst hjj
      rw [bucketAt_set_self t hj] at hb2
      exact Or.inl hb2
    · rw [bucketAt_set_other t hjj] at hb2
      exact Or.inr ⟨j2, hj2, hb2⟩
  · rintro (hbe | ⟨j2, hj2, hb2⟩)
    · exact ⟨j, by simpa [setBucket_length] using hj, by rw [bucketAt_set_self t hj, hbe]⟩
    · by_cases hjj : j2 = j
      · subst hjj
        rw [hb2] at hav
        exact nomatch hav
      · exact ⟨j2, by simpa [setBucket_length] using hj2, by rwa [bucketAt_set_other t hjj]⟩

theorem tableHas_set_removed {t : Table K V} (hWF : TableWF t) {j : Nat} {k : K} {v : V}
    (hj : j < t.buckets.length) (hb : t.bucketAt j = HashBucket.Contains k v)
    (q : K) (w : V) :
    tableHas (t.setBucket j .Removed) q w ↔ (tableHas t q w ∧ q ≠ k) := by
  constructor
  · rintro ⟨j2, hj2, hb2⟩
    rw [setBucket_length] at hj2
    by_cases hjj : j2 = j
    · subst hjj
      rw [bucketAt_set_self t hj] at hb2
      exact nomatch hb2
    · rw [bucketAt_set_other t hjj] at hb2
      refine ⟨⟨j2, hj2, hb2⟩, fun he => ?_⟩
      subst he
      exact hjj (occupied_index_unique hWF hj2 hj hb2 hb)
  · rintro ⟨⟨j2, hj2, hb2⟩, hqk⟩
    have hjj : j2 ≠ j := by
      intro he
      subst he
      rw [hb2] at hb
      injection hb with he2
      exact hqk he2
    exact ⟨j2, by simpa [setBucket_length] using hj2, by rwa [bucketAt_set_other t hjj]⟩

theorem tableHas_set_value {t : Table K V} (hWF : TableWF t) {j : Nat} {k : K} {v0 : V}
    (hj : j < t.buckets.length) (hb : t.bucketAt j = HashBucket.Contains k v0)
    (v : V) (q : K) (w : V) :
    tableHas (t.setBucket j (.Contains k v)) q w ↔
      ((q = k ∧ w = v) ∨ (tableHas t q w ∧ q ≠ k)) := by
  constructor
  · rintro ⟨j2, hj2, hb2⟩
    rw [setBucket_length] at hj2
    by_cases hjj : j2 = j
    · subst hjj
      rw [bucketAt_set_self t hj] at hb2
      injection hb2 with he1 he2
      exact Or.inl ⟨he1.symm, he2.symm⟩
    · rw [bucketAt_set_other t hjj] at hb2
      refine Or.inr ⟨⟨j2, hj2, hb2⟩, fun he => ?_⟩
      subst he
      exact hjj (occupied_index_unique hWF hj2 hj hb2 hb)
  · rintro (⟨he1, he2⟩ | ⟨⟨j2, hj2, hb2⟩, hqk⟩)
    · subst he1
      subst he2
      exact ⟨j, by simpa [setBucket_length] using hj, by rw [bucketAt_set_self t hj]⟩
    · have hjj : j2 ≠ j := by
        intro he
        subst he
        rw [hb2] at hb
        injection hb with he2
        exact hqk he2
      exact ⟨j2, by simpa [setBucket_length] using hj2, by rwa [bucketAt_set_other t hjj]⟩

theorem occupiedCount_set_occupied {t : Table K V} {j : Nat}
    (hj : j < t.buckets.length) (hav : (t.bucketAt j).is_available = true)
    (k : K) (v : V) :
    occupiedCount (t.setBucket j (.Contains k v)) = occupiedCount t + 1 := by
  have h := countP_set_add (fun b : HashBucket K V => !b.is_available)
    (HashBucket.Contains k v) t.buckets j hj
  have hg : t.buckets.getD j (HashBucket.Contains k v) = t.bucketAt j := by
    unfold Table.bucketAt
    rw [List.getD_eq_getElem _ _ hj, List.getD_eq_getElem _ _ hj]
  rw [hg] at h
  simp only [hav, is_available_contains] at h
  simp only [occupiedCount, Table.setBucket]
  simpa using h

theorem occupiedCount_set_removed {t : Table K V} {j : Nat} {k : K} {v : V}
    (hj : j < t.buckets.length) (hb : t.bucketAt j = HashBucket.Contains k v) :
    occupiedCount (t.setBucket j .Removed) + 1 = occupiedCount t := by
  have h := countP_set_add (fun b : HashBucket K V => !b.is_available)
    (HashBucket.Removed) t.buckets j hj
  have hg : t.buckets.getD j (HashBucket.Removed : HashBucket K V) = t.bucketAt j := by
    unfold Table.bucketAt
    rw [List.getD_eq_getElem _ _ hj, List.getD_eq_getElem _ _ hj]
  rw [hg] at h
  simp only [hb, is_available_contains, HashBucket.is_available] at h
  simp only [occupiedCount, Table.setBucket]
  simpa using h

theorem occupiedCount_set_value {t : Table K V} {j : Nat} {k0 k : K} {v0 v : V}
    (hj : j < t.buckets.length) (hb : t.bucketAt j = HashBucket.Contains k0 v0) :
    occupiedCount (t.setBucket j (.Contains k v)) = occupiedCount t := by
  have h := countP_set_add (fun b : HashBucket K V => !b.is_available)
    (HashBucket.Contains k v) t.buckets j hj
  have hg : t.buckets.getD j (HashBucket.Contains k v) = t.bucketAt j := by
    unfold Table.bucketAt
    rw [List.getD_eq_getElem _ _ hj, List.getD_eq_getElem _ _ hj]
  rw [hg] at h
  simp only [hb, is_available_contains] at h
  simp only [occupiedCount, Table.setBucket]
  simp at h
  omega

/-! ## The rehash fill -/

theorem fill_from_nil (t : Table K V) : t.fill_from [] = some t := rfl

theorem fill_from_cons_empty (t : Table K V) (rest : List (HashBucket K V)) :
    t.fill_from (HashBucket.Empty :: rest) = t.fill_from rest := rfl

theorem fill_from_cons_removed (t : Table K V) (rest : List (HashBucket K V)) :
    t.fill_from (HashBucket.Removed :: rest) = t.fill_from rest := rfl

theorem fill_from_cons_contains (t : Table K V) (k : K) (v : V)
    (rest : List (HashBucket K V)) :
    t.fill_from (HashBucket.Contains k v :: rest) =
      match t.scan (t.hash k) (fun hb => hb.is_empty) with
      | some j => (t.setBucket j (.Contains k v)).fill_from rest
      | none => none := rfl

theorem fill_from_spec :
    ∀ (src : List (HashBucket K V)) (dst t2 : Table K V),
      TableWF dst →
      (∀ k v, HashBucket.Contains k v ∈ src → ∀ w, ¬ tableHas dst k w) →
      NoDupKeys src →
      dst.fill_from src = some t2 →
      TableWF t2 ∧ t2.buckets.length = dst.buckets.length ∧
        (∀ q w, tableHas t2 q w ↔ (tableHas dst q w ∨ HashBucket.Contains q w ∈ src)) ∧
        occupiedCount t2 =
          occupiedCount dst + src.countP (fun b => !b.is_available) := by
  intro src
  induction src with
  | nil =>
    intro dst t2 hWF habs hnd hf
    obtain rfl : dst = t2 := by injection hf
    refine ⟨hWF, rfl, fun q w => ?_, by simp⟩
    simp
  | cons b rest ih =>
    intro dst t2 hWF habs hnd hf
    rw [NoDupKeys, List.pairwise_cons] at hnd
    obtain ⟨hhead, htail⟩ := hnd
    cases hb : b with
    | Empty =>
      subst hb
      rw [fill_from_cons_empty] at hf
      obtain ⟨h1, h2, h3, h4⟩ := ih dst t2 hWF
        (fun k v hm => habs k v (List.mem_cons_of_mem _ hm)) htail hf
      refine ⟨h1, h2, fun q w => ?_, by simpa [HashBucket.is_available] using h4⟩
      rw [h3 q w]
      simp
    | Removed =>
      subst hb
      rw [fill_from_cons_removed] at hf
      obtain ⟨h1, h2, h3, h4⟩ := ih dst t2 hWF
        (fun k v hm => habs k v (List.mem_cons_of_mem _ hm)) htail hf
      refine ⟨h1, h2, fun q w => ?_, by simpa [HashBucket.is_available] using h4⟩
      rw [h3 q w]
      simp
    | Contains k v =>
      subst hb
      rw [fill_from_cons_contains] at hf
      cases hscan : dst.scan (dst.hash k) (fun hb => hb.is_empty) with
      | none => rw [hscan] at hf; exact nomatch hf
      | some j =>
        rw [hscan] at hf
        have habsk : ∀ w, ¬ tableHas dst k w :=
          habs k v (List.mem_cons_self _ _)
        obtain ⟨hWF2, hjlt, hav⟩ := set_occupied_WF hWF habsk hscan
          (fun b2 hb2 => hb2)
          (fun b2 hb2 => by cases b2 <;> simp_all [HashBucket.is_empty, HashBucket.is_available])
        have hemp : (dst.bucketAt j).is_empty = true := by
          obtain ⟨d, hd, hje, hpj, _⟩ := scan_eq_some dst (dst.hash k) _ j hscan
          exact hpj
        have habs2 : ∀ k2 v2, HashBucket.Contains k2 v2 ∈ rest →
            ∀ w, ¬ tableHas (dst.setBucket j (.Contains k v)) k2 w := by
          intro k2 v2 hm w hhas
          rw [tableHas_set_over_available hjlt hav] at hhas
          rcases hhas with he | hhas
          · injection he with he1 he2
            exact hhead _ hm k v v2 rfl (by rw [he1])
          · exact habs k2 v2 (List.mem_cons_of_mem _ hm) w hhas
        obtain ⟨h1, h2, h3, h4⟩ := ih (dst.setBucket j (.Contains k v)) t2 hWF2
          habs2 htail hf
        rw [setBucket_length] at h2
        refine ⟨h1, h2, fun q w => ?_, ?_⟩
        · rw [h3 q w, tableHas_set_over_available hjlt hav]
          constructor
          · rintro ((he | hd) | hm)
            · injection he with he1 he2
              subst he1; subst he2
              exact Or.inr (List.mem_cons_self _ _)
            · exact Or.inl hd
            · exact Or.inr (List.mem_cons_of_mem _ hm)
          · rintro (hd | hm)
            · exact Or.inl (Or.inr hd)
            · rcases List.mem_cons.mp hm with he | hm2
              · exact Or.inl (Or.inl he.symm)
              · exact Or.inr hm2
        · rw [h4, occupiedCount_set_occupied hjlt hav]
          simp only [List.countP_cons, is_available_contains]
          simp
          omega

/-! ## Skymap-level lemmas -/

theorem DENOM_eq : MAX_LOAD_FACTOR_DENOM = 100 := rfl

theorem TOP_eq : MAX_LOAD_FACTOR_TOP = 85 := rfl

theorem MULT_eq : MULTIPLICATION_FACTOR = 4 := rfl

theorem MINCAP_eq : DEF_MIN_CAPACITY = 16 := rfl

theorem INITCAP_eq : DEF_INIT_CAPACITY = 128 := rfl

theorem with_capacity_WF (cap : Nat) (f : K → Nat) :
    SkymapWF (Skymap.with_capacity (K := K) (V := V) cap f) := by
  refine ⟨tableWF_new _ _, ?_, ?_, ?_⟩
  · simp [Skymap.with_capacity, Table.with_capacity, occupiedCount_new]
  · simp [Skymap.with_capacity]
  · simp only [Skymap.with_capacity, Table.with_capacity, table_new_length]
    exact le_max_left _ _

theorem lookup_some_cases {t : Table K V} {k : K} {j : Nat} (h : t.lookup k = some j) :
    j < t.buckets.length ∧
      (t.bucketAt j = HashBucket.Empty ∨ ∃ v, t.bucketAt j = HashBucket.Contains k v) := by
  obtain ⟨d, hd, hje, hpj, _⟩ := scan_eq_some _ _ _ _ h
  have hn : 0 < t.buckets.length := Nat.lt_of_le_of_lt (Nat.zero_le _) hd
  refine ⟨hje ▸ Nat.mod_lt _ hn, ?_⟩
  cases hb : t.bucketAt j with
  | Empty => exact Or.inl rfl
  | Removed =>
    rw [hb] at hpj
    exact nomatch hpj
  | Contains k2 v =>
    rw [hb, lookupMatch_contains] at hpj
    obtain rfl : k2 = k := of_decide_eq_true hpj
    exact Or.inr ⟨v, rfl⟩

theorem contains_key_of_has {s : Skymap K V} (hWF : TableWF s.table) {k : K} {v : V}
    (h : tableHas s.table k v) : s.contains_key k = some true := by
  obtain ⟨j, hj, hb⟩ := h
  unfold Skymap.contains_key
  rw [lookup_finds hWF hj hb]
  simp [Option.map, hb, is_available_contains]

theorem not_has_of_contains_false {s : Skymap K V} (hWF : TableWF s.table) {k : K}
    (h : s.contains_key k = some false) : ∀ v, ¬ tableHas s.table k v := by
  intro v hv
  rw [contains_key_of_has hWF hv] at h
  exact nomatch (by injection h : true = false)

theorem get_of_has {s : Skymap K V} (hWF : TableWF s.table) {k : K} {v : V}
    (h : tableHas s.table k v) : s.get k = some (some v) := by
  obtain ⟨j, hj, hb⟩ := h
  unfold Skymap.get
  rw [lookup_finds hWF hj hb]
  simp [Option.map, hb, HashBucket.get_value_ref]

/-- The specification of reshard_table, called on the state whose table
already holds the new entry but whose length counter is still the old
one: the resulting state is well formed, its length is the incremented
counter, and it holds exactly the bindings of the argument table. -/
theorem reshard_spec {t1 : Table K V} {L : Nat} {f : K → Nat} {s' : Skymap K V}
    (hWF : TableWF t1) (hcount : occupiedCount t1 = L + 1)
    (h16 : DEF_MIN_CAPACITY ≤ t1.buckets.length)
    (h : Skymap.reshard_table ⟨t1, L⟩ f = some s') :
    SkymapWF s' ∧ s'.len = L + 1 ∧
      (∀ q w, tableHas s'.table q w ↔ tableHas t1 q w) := by
  simp only [Skymap.reshard_table] at h
  split at h
  case isFalse hc =>
    obtain rfl : (⟨t1, L + 1⟩ : Skymap K V) = s' := by injection h
    have hc2 : (L + 1) * MAX_LOAD_FACTOR_DENOM ≤
        t1.buckets.length * MAX_LOAD_FACTOR_TOP := by
      have := Nat.le_of_not_lt (by simpa using hc)
      simpa using this
    exact ⟨⟨hWF, hcount.symm, by simpa using hc2, h16⟩, rfl, fun q w => Iff.rfl⟩
  case isTrue hc =>
    simp only [Skymap.reserve_space] at h
    split at h
    case isFalse hge =>
      exfalso
      rw [DENOM_eq, TOP_eq] at hc
      rw [MULT_eq] at hge
      simp only [not_lt] at hge
      have h1 : (L + 1 + 1) * 4 * 85 ≤ t1.buckets.length * 85 :=
        Nat.mul_le_mul_right _ hge
      omega
    case isTrue hlt =>
      cases hfill : (Table.with_capacity ((L + 1 + 1) * MULTIPLICATION_FACTOR) f :
          Table K V).fill_from t1.buckets with
      | none =>
        rw [hfill] at h
        exact nomatch h
      | some t2 =>
        rw [hfill] at h
        obtain rfl : (⟨t2, L + 1⟩ : Skymap K V) = s' := by
          simpa [Option.map] using h
        obtain ⟨hWF2, hlen2, hhas2, hcount2⟩ := fill_from_spec t1.buckets _ t2
          (tableWF_new _ _)
          (fun k v _ w => tableHas_new _ _ k w)
          (noDupKeys_of_WF hWF) hfill
        have hlenEq : t2.buckets.length =
            max DEF_MIN_CAPACITY
              ((L + 1 + 1) * MULTIPLICATION_FACTOR * MAX_LOAD_FACTOR_DENOM /
                MAX_LOAD_FACTOR_TOP + 1) := by
          rw [hlen2]
          exact table_new_length _ _
        have hcount3 : occupiedCount t2 = L + 1 := by
          rw [hcount2, occupiedCount_new]
          simpa [occupiedCount] using hcount
        refine ⟨⟨hWF2, hcount3.symm, ?_, ?_⟩, rfl, fun q w => ?_⟩
        · -- load factor of the fresh table
          show (L + 1) * MAX_LOAD_FACTOR_DENOM ≤
            t2.buckets.length * MAX_LOAD_FACTOR_TOP
          rw [hlenEq, DENOM_eq, TOP_eq, MULT_eq, MINCAP_eq]
          have hdm := Nat.div_add_mod ((L + 1 + 1) * 4 * 100) 85
          have hmlt : (L + 1 + 1) * 4 * 100 % 85 < 85 := Nat.mod_lt _ (by omega)
          have h1 : (L + 1) * 100 ≤ ((L + 1 + 1) * 4 * 100 / 85 + 1) * 85 := by
            omega
          calc (L + 1) * 100 ≤ ((L + 1 + 1) * 4 * 100 / 85 + 1) * 85 := h1
            _ ≤ max 16 ((L + 1 + 1) * 4 * 100 / 85 + 1) * 85 :=
              Nat.mul_le_mul_right _ (le_max_right _ _)
        · rw [hlenEq]
          exact le_max_left _ _
        · rw [hhas2 q w]
          constructor
          · rintro (hnew | hm)
            · exact absurd hnew (tableHas_new _ _ _ _)
            · exact tableHas_iff_mem.mpr hm
          · intro ht
            exact Or.inr (tableHas_iff_mem.mp ht)

/-! ## Operation specifications -/

/-- Specification of insert on a well-formed state: it either reports a
present key and changes nothing, or stores the new pair, increments the
length by exactly one and leaves every other binding unchanged. -/
theorem insert_spec {s : Skymap K V} {k : K} {v : V} {f : K → Nat} {r : Bool}
    {s' : Skymap K V} (hWF : SkymapWF s) (h : s.insert k v f = some (r, s')) :
    SkymapWF s' ∧
      ((r = false ∧ s' = s ∧ ∃ w, tableHas s.table k w) ∨
       (r = true ∧ (∀ w, ¬ tableHas s.table k w) ∧ s'.len = s.len + 1 ∧
         tableHas s'.table k v ∧
         (∀ q w, q ≠ k → (tableHas s'.table q w ↔ tableHas s.table q w)))) := by
  unfold Skymap.insert at h
  cases hc : s.contains_key k with
  | none => rw [hc] at h; exact nomatch h
  | some b =>
    rw [hc] at h
    cases b with
    | true =>
      obtain ⟨he1, he2⟩ : false = r ∧ s = s' := by
        have := h
        injection this with hp
        injection hp with hp1 hp2
        exact ⟨hp1, hp2⟩
      subst he1
      subst he2
      have hhas : ∃ w, tableHas s.table k w := by
        obtain ⟨j, hl, he⟩ := Option.map_eq_some'.mp hc
        have hav : (s.table.bucketAt j).is_available = false := by
          cases hx : (s.table.bucketAt j).is_available
          · rfl
          · rw [hx] at he; exact nomatch he
        obtain ⟨hj, hcase⟩ := lookup_some_cases hl
        rcases hcase with hemp | ⟨w, hcon⟩
        · rw [hemp] at hav; exact nomatch hav
        · exact ⟨w, j, hj, hcon⟩
      exact ⟨hWF, Or.inl ⟨rfl, rfl, hhas⟩⟩
    | false =>
      cases hff : s.table.find_free_mut k with
      | none => rw [hff] at h; exact nomatch h
      | some j =>
        rw [hff] at h
        obtain ⟨s2, hres, he⟩ := Option.map_eq_some'.mp h
        obtain ⟨he1, he2⟩ : true = r ∧ s2 = s' := by
          injection he with hp1 hp2
          exact ⟨hp1, hp2⟩
        subst he1
        subst he2
        have habs : ∀ w, ¬ tableHas s.table k w :=
          not_has_of_contains_false hWF.wf hc
        have hscan : s.table.scan (s.table.hash k)
            (fun b => b.is_available) = some j := hff
        obtain ⟨hWF2, hjlt, hav⟩ := set_occupied_WF hWF.wf habs hscan
          (fun b2 hb2 => by cases b2 <;> simp_all [HashBucket.is_empty, HashBucket.is_available])
          (fun b2 hb2 => hb2)
        have hcount2 : occupiedCount (s.table.setBucket j (.Contains k v)) =
            s.len + 1 := by
          rw [occupiedCount_set_occupied hjlt hav, hWF.lenEq]
        have h16 : DEF_MIN_CAPACITY ≤
            (s.table.setBucket j (.Contains k v)).buckets.length := by
          rw [setBucket_length]
          exact hWF.minCap
        obtain ⟨hWF3, hlen3, hhas3⟩ := reshard_spec hWF2 hcount2 h16 hres
        have hhasset : tableHas (s.table.setBucket j (.Contains k v)) k v :=
          ⟨j, by simpa [setBucket_length] using hjlt, bucketAt_set_self _ hjlt _⟩
        refine ⟨hWF3, Or.inr ⟨rfl, habs, hlen3, (hhas3 k v).mpr hhasset,
          fun q w hqk => ?_⟩⟩
        rw [hhas3 q w, tableHas_set_over_available hjlt hav]
        constructor
        · rintro (he | hh)
          · injection he with he1 he2
            exact absurd he1.symm hqk
          · exact hh
        · exact Or.inr

/-- Specification of update on a well-formed state: it either reports an
absent key and changes nothing, or replaces the value in place, leaving
the length and every other binding unchanged. -/
theorem update_spec {s : Skymap K V} {k : K} {v : V} {r : Bool} {s' : Skymap K V}
    (hWF : SkymapWF s) (h : s.update k v = some (r, s')) :
    SkymapWF s' ∧
      ((r = false ∧ s' = s ∧ ∀ w, ¬ tableHas s.table k w) ∨
       (r = true ∧ (∃ v0, tableHas s.table k v0) ∧ s'.len = s.len ∧
         tableHas s'.table k v ∧
         (∀ q w, q ≠ k → (tableHas s'.table q w ↔ tableHas s.table q w)))) := by
  unfold Skymap.update at h
  split at h
  · exact nomatch h
  rename_i j hl
  obtain ⟨hj, hcase⟩ := lookup_some_cases hl
  split at h
  case _ k0 v0 hb =>
    have hk0 : k0 = k := by
      rcases hcase with hemp | ⟨v2, hcon⟩
      · rw [hemp] at hb; exact nomatch hb
      · rw [hcon] at hb; injection hb with he1 _; exact he1.symm
    subst k0
    obtain ⟨he1, he2⟩ : true = r ∧
        (⟨s.table.setBucket j (.Contains k v), s.len⟩ : Skymap K V) = s' := by
      injection h with hp
      injection hp with hp1 hp2
      exact ⟨hp1, hp2⟩
    subst he1
    obtain rfl := he2.symm
    refine ⟨⟨set_value_WF hWF.wf hj hb, ?_, ?_, ?_⟩,
      Or.inr ⟨rfl, ⟨v0, j, hj, hb⟩, rfl, ?_, fun q w hqk => ?_⟩⟩
    · show s.len = occupiedCount (s.table.setBucket j (.Contains k v))
      rw [occupiedCount_set_value hj hb, hWF.lenEq]
    · show s.len * MAX_LOAD_FACTOR_DENOM ≤
        (s.table.setBucket j (.Contains k v)).buckets.length * MAX_LOAD_FACTOR_TOP
      rw [setBucket_length]
      exact hWF.load
    · show DEF_MIN_CAPACITY ≤
        (s.table.setBucket j (.Contains k v)).buckets.length
      rw [setBucket_length]
      exact hWF.minCap
    · exact ⟨j, by simpa [setBucket_length] using hj, bucketAt_set_self _ hj _⟩
    · rw [tableHas_set_value hWF.wf hj hb v q w]
      constructor
      · rintro (⟨he1, _⟩ | ⟨hh, _⟩)
        · exact absurd he1 hqk
        · exact hh
      · intro hh
        exact Or.inr ⟨hh, hqk⟩
  case _ hnc =>
    have hb : s.table.bucketAt j = HashBucket.Empty := by
      rcases hcase with hemp | ⟨v2, hcon⟩
      · exact hemp
      · exact absurd hcon (fun hcc => hnc k v2 hcc)
    obtain ⟨he1, he2⟩ : false = r ∧ s = s' := by
      injection h with hp
      injection hp with hp1 hp2
      exact ⟨hp1, hp2⟩
    subst he1
    subst he2
    refine ⟨hWF, Or.inl ⟨rfl, rfl, fun w hw => ?_⟩⟩
    obtain ⟨j2, hj2, hb2⟩ := hw
    have hlf := lookup_finds hWF.wf hj2 hb2
    rw [hl] at hlf
    obtain rfl : j = j2 := by injection hlf
    rw [hb] at hb2
    exact nomatch hb2

/-- Specification of remove on a well-formed state: it either reports an
absent key and changes nothing, or returns the stored value, replaces
the bucket by a tombstone, decrements the length by exactly one and
leaves every other binding unchanged. -/
theorem remove_spec {s : Skymap K V} {k : K} {r : Option V} {s' : Skymap K V}
    (hWF : SkymapWF s) (h : s.remove k = some (r, s')) :
    SkymapWF s' ∧
      ((r = none ∧ s' = s ∧ ∀ w, ¬ tableHas s.table k w) ∨
       (∃ v, r = some v ∧ tableHas s.table k v ∧ s.len = s'.len + 1 ∧
         (∀ w, ¬ tableHas s'.table k w) ∧
         (∀ q w, q ≠ k → (tableHas s'.table q w ↔ tableHas s.table q w)))) := by
  unfold Skymap.remove at h
  split at h
  · exact nomatch h
  rename_i j hl
  obtain ⟨hj, hcase⟩ := lookup_some_cases hl
  split at h
  case _ k0 v0 hb =>
    have hk0 : k0 = k := by
      rcases hcase with hemp | ⟨v2, hcon⟩
      · rw [hemp] at hb; exact nomatch hb
      · rw [hcon] at hb; injection hb with he1 _; exact he1.symm
    subst k0
    obtain ⟨he1, he2⟩ : some v0 = r ∧
        (⟨s.table.setBucket j .Removed, s.len - 1⟩ : Skymap K V) = s' := by
      injection h with hp
      injection hp with hp1 hp2
      exact ⟨hp1, hp2⟩
    subst he1
    obtain rfl := he2.symm
    have hpos : 0 < occupiedCount s.table := by
      rw [occupiedCount]
      exact List.countP_pos_iff.mpr
        ⟨_, tableHas_iff_mem.mp ⟨j, hj, hb⟩, by simp [is_available_contains]⟩
    have hlen1 : 1 ≤ s.len := by rw [hWF.lenEq]; exact hpos
    have hcnt := occupiedCount_set_removed hj hb
    refine ⟨⟨set_removed_WF hWF.wf hj hb, ?_, ?_, ?_⟩,
      Or.inr ⟨v0, rfl, ⟨j, hj, hb⟩, by show s.len = s.len - 1 + 1; omega,
        fun w hw => ?_, fun q w hqk => ?_⟩⟩
    · show s.len - 1 = occupiedCount (s.table.setBucket j .Removed)
      rw [hWF.lenEq]
      omega
    · show (s.len - 1) * MAX_LOAD_FACTOR_DENOM ≤
        (s.table.setBucket j .Removed).buckets.length * MAX_LOAD_FACTOR_TOP
      rw [setBucket_length]
      exact le_trans (Nat.mul_le_mul_right _ (by omega)) hWF.load
    · show DEF_MIN_CAPACITY ≤ (s.table.setBucket j .Removed).buckets.length
      rw [setBucket_length]
      exact hWF.minCap
    · rw [tableHas_set_removed hWF.wf hj hb k w] at hw
      exact hw.2 rfl
    · rw [tableHas_set_removed hWF.wf hj hb q w]
      exact ⟨fun hh => hh.1, fun hh => ⟨hh, hqk⟩⟩
  case _ hnc =>
    have hb : s.table.bucketAt j = HashBucket.Empty := by
      rcases hcase with hemp | ⟨v2, hcon⟩
      · exact hemp
      · exact absurd hcon (fun hcc => hnc k v2 hcc)
    obtain ⟨he1, he2⟩ : none = r ∧ s = s' := by
      injection h with hp
      injection hp with hp1 hp2
      exact ⟨hp1, hp2⟩
    subst he1
    subst he2
    refine ⟨hWF, Or.inl ⟨rfl, rfl, fun w hw => ?_⟩⟩
    obtain ⟨j2, hj2, hb2⟩ := hw
    have hlf := lookup_finds hWF.wf hj2 hb2
    rw [hl] at hlf
    obtain rfl : j = j2 := by injection hlf
    rw [hb] at hb2
    exact nomatch hb2

/-- Specification of true_if_removed on a well-formed state: the boolean
analogue of remove. -/
theorem true_if_removed_spec {s : Skymap K V} {k : K} {r : Bool} {s' : Skymap K V}
    (hWF : SkymapWF s) (h : s.true_if_removed k = some (r, s')) :
    SkymapWF s' ∧
      ((r = false ∧ s' = s ∧ ∀ w, ¬ tableHas s.table k w) ∨
       (r = true ∧ (∃ v, tableHas s.table k v) ∧ s.len = s'.len + 1 ∧
         (∀ w, ¬ tableHas s'.table k w) ∧
         (∀ q w, q ≠ k → (tableHas s'.table q w ↔ tableHas s.table q w)))) := by
  unfold Skymap.true_if_removed at h
  split at h
  · exact nomatch h
  rename_i j hl
  obtain ⟨hj, hcase⟩ := lookup_some_cases hl
  split at h
  case _ k0 v0 hb =>
    have hk0 : k0 = k := by
      rcases hcase with hemp | ⟨v2, hcon⟩
      · rw [hemp] at hb; exact nomatch hb
      · rw [hcon] at hb; injection hb with he1 _; exact he1.symm
    subst k0
    obtain ⟨he1, he2⟩ : true = r ∧
        (⟨s.table.setBucket j .Removed, s.len - 1⟩ : Skymap K V) = s' := by
      injection h with hp
      injection hp with hp1 hp2
      exact ⟨hp1, hp2⟩
    subst he1
    obtain rfl := he2.symm
    have hpos : 0 < occupiedCount s.table := by
      rw [occupiedCount]
      exact List.countP_pos_iff.mpr
        ⟨_, tableHas_iff_mem.mp ⟨j, hj, hb⟩, by simp [is_available_contains]⟩
    have hlen1 : 1 ≤ s.len := by rw [hWF.lenEq]; exact hpos
    have hcnt := occupiedCount_set_removed hj hb
    refine ⟨⟨set_removed_WF hWF.wf hj hb, ?_, ?_, ?_⟩,
      Or.inr ⟨rfl, ⟨v0, j, hj, hb⟩, by show s.len = s.len - 1 + 1; omega,
        fun w hw => ?_, fun q w hqk => ?_⟩⟩
    · show s.len - 1 = occupiedCount (s.table.setBucket j .Removed)
      rw [hWF.lenEq]
      omega
    · show (s.len - 1) * MAX_LOAD_FACTOR_DENOM ≤
        (s.table.setBucket j .Removed).buckets.length * MAX_LOAD_FACTOR_TOP
      rw [setBucket_length]
      exact le_trans (Nat.mul_le_mul_right _ (by omega)) hWF.load
    · show DEF_MIN_CAPACITY ≤ (s.table.setBucket j .Removed).buckets.length
      rw [setBucket_length]
      exact hWF.minCap
    · rw [tableHas_set_removed hWF.wf hj hb k w] at hw
      exact hw.2 rfl
    · rw [tableHas_set_removed hWF.wf hj hb q w]
      exact ⟨fun hh => hh.1, fun hh => ⟨hh, hqk⟩⟩
  case _ hnc =>
    have hb : s.table.bucketAt j = HashBucket.Empty := by
      rcases hcase with hemp | ⟨v2, hcon⟩
      · exact hemp
      · exact absurd hcon (fun hcc => hnc k v2 hcc)
    obtain ⟨he1, he2⟩ : false = r ∧ s = s' := by
      injection h with hp
      injection hp with hp1 hp2
      exact ⟨hp1, hp2⟩
    subst he1
    subst he2
    refine ⟨hWF, Or.inl ⟨rfl, rfl, fun w hw => ?_⟩⟩
    obtain ⟨j2, hj2, hb2⟩ := hw
    have hlf := lookup_finds hWF.wf hj2 hb2
    rw [hl] at hlf
    obtain rfl : j = j2 := by injection hlf
    rw [hb] at hb2
    exact nomatch hb2

/-- The post-clear state of the original map is well formed. -/
theorem clear_self_WF (f : K → Nat) :
    SkymapWF (⟨Table.new DEF_INIT_CAPACITY f, 0⟩ : Skymap K V) := by
  refine ⟨tableWF_new _ _, (occupiedCount_new _ _).symm, by simp, ?_⟩
  rw [table_new_length, MINCAP_eq, INITCAP_eq]
  omega

/-! ## Preservation along operation sequences -/

theorem step_WF {s s' : Skymap K V} {op : MapOp K V} (hWF : SkymapWF s)
    (h : s.step op = some s') : SkymapWF s' := by
  cases op with
  | insert k v f =>
    obtain ⟨⟨r, s2⟩, h1, h2⟩ := Option.map_eq_some'.mp h
    obtain rfl : s2 = s' := h2
    exact (insert_spec hWF h1).1
  | update k v =>
    obtain ⟨⟨r, s2⟩, h1, h2⟩ := Option.map_eq_some'.mp h
    obtain rfl : s2 = s' := h2
    exact (update_spec hWF h1).1
  | remove k =>
    obtain ⟨⟨r, s2⟩, h1, h2⟩ := Option.map_eq_some'.mp h
    obtain rfl : s2 = s' := h2
    exact (remove_spec hWF h1).1
  | removeIfPresent k =>
    obtain ⟨⟨r, s2⟩, h1, h2⟩ := Option.map_eq_some'.mp h
    obtain rfl : s2 = s' := h2
    exact (true_if_removed_spec hWF h1).1
  | clear f =>
    obtain rfl : (s.clear f).2 = s' := by injection h
    exact clear_self_WF f

theorem run_WF : ∀ {ops : List (MapOp K V)} {s s' : Skymap K V},
    SkymapWF s → Skymap.run ops s = some s' → SkymapWF s' := by
  intro ops
  induction ops with
  | nil =>
    intro s s' hWF h
    obtain rfl : s = s' := by injection h
    exact hWF
  | cons op rest ih =>
    intro s s' hWF h
    unfold Skymap.run at h
    cases hst : s.step op with
    | none => rw [hst] at h; exact nomatch h
    | some s2 =>
      rw [hst] at h
      exact ih (step_WF hWF hst) h

theorem reachable_WF {s : Skymap K V} (h : Skymap.Reachable s) : SkymapWF s := by
  obtain ⟨c, f, ops, hr⟩ := h
  exact run_WF (with_capacity_WF c f) hr

theorem step_preserves_binding {s s' : Skymap K V} {op : MapOp K V} {k : K} {v : V}
    (hWF : SkymapWF s) (hhas : tableHas s.table k v) (hmm : op.mayModify k = false)
    (h : s.step op = some s') : tableHas s'.table k v := by
  cases op with
  | insert k2 v2 f =>
    obtain ⟨⟨r, s2⟩, h1, h2⟩ := Option.map_eq_some'.mp h
    obtain rfl : s2 = s' := h2
    rcases (insert_spec hWF h1).2 with ⟨_, he, _⟩ | ⟨_, habs, _, _, hpres⟩
    · rw [he]; exact hhas
    · have hne : k ≠ k2 := fun he2 => habs v (he2 ▸ hhas)
      exact (hpres k v hne).mpr hhas
  | update k2 v2 =>
    have hne : k ≠ k2 := by
      intro he
      subst he
      simp [MapOp.mayModify] at hmm
    obtain ⟨⟨r, s2⟩, h1, h2⟩ := Option.map_eq_some'.mp h
    obtain rfl : s2 = s' := h2
    rcases (update_spec hWF h1).2 with ⟨_, he, _⟩ | ⟨_, _, _, _, hpres⟩
    · rw [he]; exact hhas
    · exact (hpres k v hne).mpr hhas
  | remove k2 =>
    have hne : k ≠ k2 := by
      intro he
      subst he
      simp [MapOp.mayModify] at hmm
    obtain ⟨⟨r, s2⟩, h1, h2⟩ := Option.map_eq_some'.mp h
    obtain rfl : s2 = s' := h2
    rcases (remove_spec hWF h1).2 with ⟨_, he, _⟩ | ⟨v2, _, _, _, _, hpres⟩
    · rw [he]; exact hhas
    · exact (hpres k v hne).mpr hhas
  | removeIfPresent k2 =>
    have hne : k ≠ k2 := by
      intro he
      subst he
      simp [MapOp.mayModify] at hmm
    obtain ⟨⟨r, s2⟩, h1, h2⟩ := Option.map_eq_some'.mp h
    obtain rfl : s2 = s' := h2
    rcases (true_if_removed_spec hWF h1).2 with ⟨_, he, _⟩ | ⟨_, _, _, _, hpres⟩
    · rw [he]; exact hhas
    · exact (hpres k v hne).mpr hhas
  | clear f =>
    simp [MapOp.mayModify] at hmm

theorem run_preserves_binding :
    ∀ {ops : List (MapOp K V)} {s s' : Skymap K V} {k : K} {v : V},
      SkymapWF s → tableHas s.table k v → (∀ op ∈ ops, op.mayModify k = false) →
      Skymap.run ops s = some s' → tableHas s'.table k v := by
  intro ops
  induction ops with
  | nil =>
    intro s s' k v hWF hhas _ h
    obtain rfl : s = s' := by injection h
    exact hhas
  | cons op rest ih =>
    intro s s' k v hWF hhas hmm h
    unfold Skymap.run at h
    cases hst : s.step op with
    | none => rw [hst] at h; exact nomatch h
    | some s2 =>
      rw [hst] at h
      exact ih (step_WF hWF hst)
        (step_preserves_binding hWF hhas (hmm op (List.mem_cons_self _ _)) hst)
        (fun op2 hop2 => hmm op2 (List.mem_cons_of_mem _ hop2)) h

/-- On a well-formed state, update of a present key always completes and
returns true, storing the new value. -/
theorem update_of_has {s : Skymap K V} (hWF : SkymapWF s) {k : K} {v : V}
    (hhas : tableHas s.table k v) (v2 : V) :
    ∃ s3, s.update k v2 = some (true, s3) ∧ SkymapWF s3 ∧ tableHas s3.table k v2 := by
  cases hu : s.update k v2 with
  | none =>
    exfalso
    obtain ⟨j, hj, hb⟩ := hhas
    have hl : s.table.lookup k = some j := lookup_finds hWF.wf hj hb
    unfold Skymap.update at hu
    split at hu
    · rename_i hl2
      rw [hl] at hl2
      exact nomatch hl2
    · split at hu
      · exact nomatch hu
      · exact nomatch hu
  | some p =>
    obtain ⟨r, s3⟩ := p
    obtain ⟨hWF3, hcases⟩ := update_spec hWF hu
    rcases hcases with ⟨_, _, habs⟩ | ⟨hr, _, _, hhas3, _⟩
    · exact absurd hhas (habs v)
    · subst hr
      exact ⟨s3, rfl, hWF3, hhas3⟩

/-! ## The claims -/

/-- Claim C1, as frozen, is refuted at a concrete input: on a fresh
16-bucket map, insert(1, 10) returns true and no remove(1) (nor any
other removing operation) follows, yet after the intervening
update(1, 20) the lookup get(1) dereferences to 20, not to 10. -/
theorem c1_counterexample :
    (w0.insert 1 10 natHash).map Prod.fst = some true ∧
    (([MapOp.update 1 20] : List (MapOp Nat Nat)).all (fun op =>
        match op with
        | MapOp.remove q => decide (q ≠ 1)
        | MapOp.removeIfPresent q => decide (q ≠ 1)
        | MapOp.clear _ => false
        | _ => true)) = true ∧
    (Skymap.run [MapOp.update 1 20] c1xS1).map (fun s => s.get 1) =
      some (some (some 20)) ∧
    some (some (some (20 : Nat))) ≠ some (some (some (10 : Nat))) := by
  refine ⟨rfl, rfl, rfl, by decide⟩

/-- Claim C1 (amended): for any sequence of completed Skymap operations
on a reachable state in which insert(k, v) returns true and no
subsequent operation removes or overwrites the binding of k (no
remove(k), true_if_removed(k), update(k, _) or clear()), get(k)
dereferences to v; and if update(k, v2) is then called, it returns true
and, after further operations not touching k, get(k) dereferences
to v2. -/
theorem c1_round_trip {s s1 s2 : Skymap K V} {k : K} {v : V} {f : K → Nat}
    {ops : List (MapOp K V)}
    (hreach : Skymap.Reachable s)
    (hins : s.insert k v f = some (true, s1))
    (hops : ∀ op ∈ ops, op.mayModify k = false)
    (hrun : Skymap.run ops s1 = some s2) :
    s2.get k = some (some v) ∧
    ∀ v2, ∃ s3, s2.update k v2 = some (true, s3) ∧
      ∀ ops2 s4, (∀ op ∈ ops2, op.mayModify k = false) →
        Skymap.run ops2 s3 = some s4 → s4.get k = some (some v2) := by
  have hWF := reachable_WF hreach
  obtain ⟨hWF1, hcases⟩ := insert_spec hWF hins
  rcases hcases with ⟨hfalse, _, _⟩ | ⟨_, _, _, hhas1, _⟩
  · exact nomatch hfalse
  have hWF2 := run_WF hWF1 hrun
  have hhas2 := run_preserves_binding hWF1 hhas1 hops hrun
  refine ⟨get_of_has hWF2.wf hhas2, fun v2 => ?_⟩
  obtain ⟨s3, hupd, hWF3, hhas3⟩ := update_of_has hWF2 hhas2 v2
  refine ⟨s3, hupd, fun ops2 s4 hops2 hrun2 => ?_⟩
  have hWF4 := run_WF hWF3 hrun2
  exact get_of_has hWF4.wf (run_preserves_binding hWF3 hhas3 hops2 hrun2)

/-- Claim C1 witness: a concrete instantiation of the amended round
trip. -/
theorem c1_witness : c1xS1.get 1 = some (some 10) :=
  (@c1_round_trip Nat Nat _ w0 c1xS1 c1xS1 1 10 natHash []
    ⟨0, natHash, [], by rfl⟩ (by rfl)
    (by intro op hop; exact absurd hop (List.not_mem_nil op)) (by rfl)).1

/-- Claim C2: the insert contract is violated by the code.  After sixteen
insert/remove pairs on a fresh 16-bucket map every bucket is a Removed
tombstone; the key 16 is then absent (no bucket holds any key), but
insert(16, 100) does not return true storing the pair: its initial
contains_key probe finds neither the key nor an Empty bucket, walks the
whole table and panics (modelled as none). -/
theorem c2_insert_panics :
    (Skymap.run satOps w0).map
      (fun s => (s.table.buckets, s.insert 16 100 natHash)) =
    some (List.replicate 16 HashBucket.Removed, none) := by
  rfl

/-- Claim C3: the remove contract is violated by the code.  The last
operation of the saturating sequence is the first remove(15); a second
remove(15), immediately after, does not return None: its lookup probe
finds neither the key nor an Empty bucket, walks the whole table and
panics (modelled as none). -/
theorem c3_second_remove_panics :
    (Skymap.run satOps w0).map (fun s => s.remove 15) = some none := by
  rfl

/-- Claim C4: absence-stability is violated by the code.  After the
saturating sequence the key 16 was never inserted, yet get(16) does not
return None and contains_key(16) does not return false: both probes walk
the whole table without finding the key or an Empty bucket and panic
(modelled as none). -/
theorem c4_absent_lookup_panics :
    (Skymap.run satOps w0).map (fun s => (s.get 16, s.contains_key 16)) =
      some (none, none) := by
  rfl

/-- Claim C5: in every reachable table state, for every Occupied bucket
at index j holding key k, every bucket index in the half-open probe
range from the home index of k to j holds either a Tombstone or an
Occupied bucket with a different key, and never an Empty bucket. -/
theorem c5_probe_chain_integrity {s : Skymap K V} (hreach : Skymap.Reachable s) :
    ∀ j k v, j < s.table.buckets.length →
      s.table.bucketAt j = HashBucket.Contains k v →
      ∀ i, i < probeLen (s.table.hash k) j s.table.buckets.length →
        (s.table.bucketAt ((s.table.hash k + i) % s.table.buckets.length) =
            HashBucket.Removed ∨
          ∃ k2 v2,
            s.table.bucketAt ((s.table.hash k + i) % s.table.buckets.length) =
              HashBucket.Contains k2 v2 ∧ k2 ≠ k) := by
  intro j k v hj hb i hi
  have hWF := (reachable_WF hreach).wf
  have hlm := hWF j k v hj hb i hi
  cases hx : s.table.bucketAt ((s.table.hash k + i) % s.table.buckets.length) with
  | Empty => rw [hx] at hlm; exact nomatch hlm
  | Removed => exact Or.inl rfl
  | Contains k2 v2 =>
    rw [hx, lookupMatch_contains] at hlm
    exact Or.inr ⟨k2, v2, rfl, of_decide_eq_false hlm⟩

/-- Claim C5 witness: after two colliding inserts, the probe range of the
key 16 stored at index 1 passes over index 0, which holds the other
key 0. -/
theorem c5_witness :
    c5S.table.bucketAt ((c5S.table.hash 16 + 0) % c5S.table.buckets.length) =
        HashBucket.Removed ∨
      ∃ k2 v2,
        c5S.table.bucketAt ((c5S.table.hash 16 + 0) % c5S.table.buckets.length) =
          HashBucket.Contains k2 v2 ∧ k2 ≠ 16 :=
  c5_probe_chain_integrity (s := c5S) ⟨0, natHash, c5Ops, by rfl⟩ 1 16 8
    (by decide) (by rfl) 0 (by decide)

/-- Claim C6: after any completed insert on a reachable state, the load
factor bound len * 100 <= bucket_count * 85 holds. -/
theorem c6_load_factor {s s2 : Skymap K V} {k : K} {v : V} {f : K → Nat} {b : Bool}
    (hreach : Skymap.Reachable s) (h : s.insert k v f = some (b, s2)) :
    s2.len * 100 ≤ s2.table.buckets.length * 85 := by
  have hWF2 := (insert_spec (reachable_WF hreach) h).1
  have hload := hWF2.load
  rw [DENOM_eq, TOP_eq] at hload
  exact hload

/-- Claim C6 witness: the load factor bound after a concrete insert. -/
theorem c6_witness : c6S.len * 100 ≤ c6S.table.buckets.length * 85 :=
  @c6_load_factor Nat Nat _ w0 c6S 1 2 natHash true
    ⟨0, natHash, [], by rfl⟩ (by rfl)

/-- Claim C7: the probe walk visits the indices (hash + i) mod
bucket_count for i = 0 .. bucket_count - 1 and aborts exactly when no
visited bucket satisfies the predicate; if some bucket of the table is
Empty, a lookup (whose predicate accepts Empty buckets) never reaches
the panic branch. -/
theorem c7_scan_totality (t : Table K V) (k : K) (hh : Nat)
    (pred : HashBucket K V → Bool) :
    (t.scan hh pred = none ↔
      ∀ i, i < t.buckets.length →
        pred (t.bucketAt ((hh + i) % t.buckets.length)) = false) ∧
    ((∃ j, j < t.buckets.length ∧ t.bucketAt j = HashBucket.Empty) →
      t.lookup k ≠ none) := by
  refine ⟨scan_eq_none_iff t hh pred, ?_⟩
  rintro ⟨j, hj, hemp⟩ hnone
  have hn : 0 < t.buckets.length := Nat.lt_of_le_of_lt (Nat.zero_le _) hj
  have hiff := (scan_eq_none_iff t (t.hash k) (lookupMatch k)).mp hnone
  have hd := probeLen_lt (t.hash k) (j := j) hn
  have hjd := add_probeLen_mod (t.hash k) hj
  have hfalse := hiff (probeLen (t.hash k) j t.buckets.length) hd
  rw [hjd, hemp] at hfalse
  exact nomatch hfalse

/-- Claim C7 witness: on a one-bucket table holding an Empty bucket, a
scan whose predicate rejects everything aborts, and a lookup does not. -/
theorem c7_witness :
    (c7T.scan 0 (fun b => b.is_removed) = none) ∧ c7T.lookup 5 ≠ none := by
  constructor
  · exact (c7_scan_totality c7T 5 0 (fun b => b.is_removed)).1.mpr (by decide)
  · exact (c7_scan_totality c7T 5 0 (fun b => b.is_removed)).2 ⟨0, by decide, rfl⟩

/-- Claim C8, as frozen, is refuted at the concrete capacity 14: the code
allocates max(16, floor(14 * 100 / 85) + 1) = 17 buckets, while the
claimed formula max(16, ceil(14 * 100 / 85) + 1) gives 18. -/
theorem c8_counterexample :
    (Table.with_capacity 14 natHash : Table Nat Nat).buckets.length ≠
      max 16 ((14 * 100 + 84) / 85 + 1) := by
  decide

/-- Claim C8 (amended): with_capacity(c) allocates exactly
max(16, floor(c * 100 / 85) + 1) buckets. -/
theorem c8_with_capacity_buckets (cap : Nat) (f : K → Nat) :
    (Table.with_capacity (K := K) (V := V) cap f).buckets.length =
      max 16 (cap * 100 / 85 + 1) := by
  rw [with_capacity_length, MINCAP_eq, DENOM_eq, TOP_eq]

/-- Claim C9, as frozen, is refuted: the initial table of Skymap::new()
holds 151 buckets, not 128 (128 is the key capacity, and
with_capacity(128) allocates max(16, 12800 / 85 + 1) = 151 buckets). -/
theorem c9_counterexample :
    (Skymap.new natHash : Skymap Nat Nat).table.buckets.length ≠ 128 := by
  decide

/-- Claim C9 (amended): a Skymap constructed by new() is empty (len 0,
is_empty true) and its initial table holds exactly 151 buckets, room for
128 keys below the 85 percent load factor. -/
theorem c9_new_map (f : K → Nat) :
    (Skymap.new (K := K) (V := V) f).len = 0 ∧
    (Skymap.new (K := K) (V := V) f).is_empty = true ∧
    (Skymap.new (K := K) (V := V) f).table.buckets.length = 151 := by
  refine ⟨rfl, rfl, ?_⟩
  show (Table.with_capacity DEF_INIT_CAPACITY f : Table K V).buckets.length = 151
  rw [with_capacity_length]
  rfl

/-- Claim C10: clear() does not discard the stored data: the returned
Skymap owns the previous table (hence exactly the previous key/value
pairs) and the previous length, while the original map is left with a
fresh 128-bucket table of Empty buckets and length 0. -/
theorem c10_clear_preserves (s : Skymap K V) (f : K → Nat) :
    (s.clear f).1.table = s.table ∧ (s.clear f).1.len = s.len ∧
    (∀ k v, tableHas (s.clear f).1.table k v ↔ tableHas s.table k v) ∧
    (s.clear f).2.len = 0 ∧
    (s.clear f).2.table.buckets = List.replicate 128 HashBucket.Empty :=
  ⟨rfl, rfl, fun k v => Iff.rfl, rfl, rfl⟩

end Skytable
